import Mathlib

/-!
A verification development for `prox2vmx.py`, a translator from Proxmox VM
configuration files (`key: value` text) to VMware `.vmx` descriptors.

Python strings are modelled as `List Char`; Python dicts (which preserve
insertion order and update values in place) are modelled as association
lists with an insert operation that updates in place and appends new keys.
-/

/-- The character list underlying a string literal (Python `str` values). -/
def str (s : String) : List Char := s.data

/-- Python `str.strip()`: drop leading and trailing whitespace. -/
def stripChars (s : List Char) : List Char :=
  ((s.dropWhile Char.isWhitespace).reverse.dropWhile Char.isWhitespace).reverse

/-- Python `needle in hay` on strings: substring test. -/
def isSubstr (needle : List Char) : List Char → Bool
  | [] => needle.isEmpty
  | c :: rest => needle.isPrefixOf (c :: rest) || isSubstr needle rest

/-- Split at the first occurrence of the (nonempty) separator substring:
`some (before, after)` when the separator occurs, `none` otherwise. -/
def splitFirstSub (sep : List Char) : List Char → Option (List Char × List Char)
  | [] => if sep.isEmpty then some ([], []) else none
  | c :: rest =>
    if sep.isPrefixOf (c :: rest) then some ([], (c :: rest).drop sep.length)
    else (splitFirstSub sep rest).map (fun p => (c :: p.1, p.2))

/-- Python `s.split(sep)` (fuel-indexed so that it is structurally recursive;
`fuel = s.length` always suffices because every step consumes input). -/
def pySplitAux (sep : List Char) : Nat → List Char → List Char → List (List Char)
  | _, acc, [] => [acc.reverse]
  | 0, acc, s => [acc.reverse ++ s]
  | fuel + 1, acc, c :: rest =>
    if sep.isPrefixOf (c :: rest) then
      acc.reverse :: pySplitAux sep fuel [] (List.drop (sep.length - 1) rest)
    else pySplitAux sep fuel (c :: acc) rest

/-- Python `s.split(sep)` for a nonempty separator. -/
def pySplit (sep s : List Char) : List (List Char) := pySplitAux sep s.length [] s

/-- Python `entry.split(",")[0]`: the part before the first comma. -/
def beforeComma (s : List Char) : List Char := s.takeWhile (fun c => !(c == ','))

/-- `digitAfter p k` models `re.match` of an anchored pattern `p` followed by
`\d`: `p` is a prefix of `k` and the next character is a digit. -/
def digitAfter : List Char → List Char → Bool
  | [], [] => false
  | [], d :: _ => d.isDigit
  | _ :: _, [] => false
  | a :: ps, b :: ks => a == b && digitAfter ps ks

/-- `re.match(r"^scsi\d", key)` from the source. -/
def isScsiKey (k : List Char) : Bool := digitAfter (str "scsi") k

/-- `re.match(r"^(sata|scsi|efidisk)\d", key)` from the source. -/
def isDiskKey (k : List Char) : Bool :=
  digitAfter (str "sata") k || digitAfter (str "scsi") k || digitAfter (str "efidisk") k

/-- `re.match(r"^net\d", key)` from the source. -/
def isNetKey (k : List Char) : Bool := digitAfter (str "net") k

/-- Python `int("".join(ch for ch in key if ch.isdigit()))` applied to a
digit string: decimal value of the digits. -/
def natFromDigits (ds : List Char) : Nat := ds.foldl (fun n c => n * 10 + (c.toNat - 48)) 0

/-- Decimal digits of `n` (the rendering Python's f-strings use for ints);
fuel-indexed for structural recursion, `n + 1` units of fuel suffice. -/
def natToDigitsAux : Nat → Nat → List Char
  | 0, _ => []
  | fuel + 1, n =>
    if n < 10 then [Nat.digitChar n]
    else natToDigitsAux fuel (n / 10) ++ [Nat.digitChar (n % 10)]

/-- Decimal rendering of a natural number. -/
def natToDigits (n : Nat) : List Char := natToDigitsAux (n + 1) n

/-- Association list with Python-dict semantics (ordered, unique keys). -/
abbrev Dict := List (List Char × List Char)

/-- Python `d[k]` lookup (as an `Option`): first entry with the given key. -/
def dictGet (d : Dict) (k : List Char) : Option (List Char) :=
  match d with
  | [] => none
  | (k', v) :: rest => if k' = k then some v else dictGet rest k

/-- Python `d[k] = v`: update the value in place if the key is present,
otherwise append the new pair at the end. -/
def dictInsert (d : Dict) (k v : List Char) : Dict :=
  match d with
  | [] => [(k, v)]
  | (k', v') :: rest => if k' = k then (k, v) :: rest else (k', v') :: dictInsert rest k v

/-- Python `k in d`. -/
def hasKey (d : Dict) (k : List Char) : Bool := (dictGet d k).isSome

/-- The `GUESTOS_MAP` table from the source. -/
def GUESTOS_MAP : Dict :=
  [(str "win11", str "windows2019srvNext-64"),
   (str "win10", str "windows2019srv-64"),
   (str "win8", str "windows8srv-64"),
   (str "win7", str "windows7srv-64"),
   (str "w2k8", str "longhorn-64"),
   (str "wxp", str "winNetEnterprise-64"),
   (str "l26", str "otherlinux-64"),
   (str "l24", str "other24xlinux-64")]

/-- One alternative of a `tag=([^,]+)` regex at the start of `s`: the tag
followed by `=` must be a prefix and at least one non-comma character must
follow; the capture is the maximal run of non-comma characters. -/
def tagCapture (tag : List Char) (s : List Char) : Option (List Char) :=
  if (tag ++ ['=']).isPrefixOf s then
    let cap := (s.drop (tag.length + 1)).takeWhile (fun c => !(c == ','))
    if cap.isEmpty then none else some cap
  else none

/-- `re.search(r"(?:t1|t2|...)=([^,]+)", s)`: scan positions left to right,
at each position try the alternatives in order. -/
def tagSearch (tags : List (List Char)) : List Char → Option (List Char)
  | [] => none
  | c :: rest =>
    match tags.findSome? (fun t => tagCapture t (c :: rest)) with
    | some cap => some cap
    | none => tagSearch tags rest

/-- The NIC model names of the source's MAC regex, in alternation order. -/
def nicModels : List (List Char) :=
  [str "virtio", str "e1000", str "e1000e", str "vmxnet3", str "rtl8139"]

/-- The empty-CD-ROM marker `"none,media=cdrom"` of the source. -/
def cdromPat : List Char := str "none,media=cdrom"

/-- Line 132 of the source: `".qcow2" in entry or ".vmdk" in entry or ".raw" in entry`. -/
def hasConvertibleExt (entry : List Char) : Bool :=
  isSubstr (str ".qcow2") entry || isSubstr (str ".vmdk") entry || isSubstr (str ".raw") entry

/-- The destination controller family name: `"scsi0"` for `^scsi\d` keys,
`"sata0"` otherwise (line 120-123 of the source). -/
def devOf (scsiFam : Bool) : List Char := if scsiFam then str "scsi0" else str "sata0"

/-- The key `f"{dev}.present"`. -/
def devPresKey (scsiFam : Bool) : List Char := devOf scsiFam ++ str ".present"

/-- The key `f"{dev}:{i}.present"`. -/
def slotPresKey (scsiFam : Bool) (i : Nat) : List Char :=
  devOf scsiFam ++ (':' :: (natToDigits i ++ str ".present"))

/-- The key `f"{dev}:{i}.fileName"`. -/
def slotFileKey (scsiFam : Bool) (i : Nat) : List Char :=
  devOf scsiFam ++ (':' :: (natToDigits i ++ str ".fileName"))

/-- The destination disk file name `f"{vm_name}-{dev}-disk-{disk_id[dev]}.vmdk"`. -/
def vmdkNameOf (name : List Char) (scsiFam : Bool) (i : Nat) : List Char :=
  name ++ str "-" ++ devOf scsiFam ++ str "-disk-" ++ natToDigits i ++ str ".vmdk"

/-- `int("".join(ch for ch in key if ch.isdigit()))` from line 140. -/
def nicIdOf (key : List Char) : Nat := natFromDigits (key.filter Char.isDigit)

/-- The key `f"ethernet{nic_id}{suffix}"`. -/
def ethKeyOf (nic : Nat) (suffix : List Char) : List Char :=
  str "ethernet" ++ (natToDigits nic ++ suffix)

/-- The mutable state of `process_conf`'s loop: the destination mapping, the
conversion-task list, and the two per-family slot counters `disk_id`. -/
structure MState where
  vmx : Dict
  tasks : List (List Char × List Char)
  sata : Nat
  scsi : Nat
deriving DecidableEq

/-- The slot counter `disk_id[dev]` for a controller family. -/
def ctrOf (s : MState) (scsiFam : Bool) : Nat := if scsiFam then s.scsi else s.sata

/-- The disk branch of the loop body (lines 116-137 of the source), for an
entry already known to match the disk-key pattern and not to be an empty
CD-ROM. -/
def diskStep (name : List Char) (s : MState) (key entry : List Char) : MState :=
  let scsiFam := isScsiKey key
  let v1 := if scsiFam then dictInsert s.vmx (str "scsi0.virtualDev") (str "lsilogic") else s.vmx
  let v2 := dictInsert v1 (devPresKey scsiFam) (str "TRUE")
  let file := beforeComma entry
  let i := ctrOf s scsiFam
  let vmdk := vmdkNameOf name scsiFam i
  let tasks := if hasConvertibleExt entry then s.tasks ++ [(file, vmdk)] else s.tasks
  let v3 := dictInsert v2 (slotPresKey scsiFam i) (str "TRUE")
  let v4 := dictInsert v3 (slotFileKey scsiFam i) vmdk
  { vmx := v4, tasks := tasks,
    sata := if scsiFam then s.sata else s.sata + 1,
    scsi := if scsiFam then s.scsi + 1 else s.scsi }

/-- The network branch of the loop body (lines 139-150 of the source). -/
def netStep (preserve_mac : Bool) (s : MState) (key entry : List Char) : MState :=
  let nic := nicIdOf key
  let m := tagSearch nicModels entry
  let n := tagSearch [str "bridge"] entry
  let v1 := dictInsert s.vmx (ethKeyOf nic (str ".addressType")) (str "vpx")
  let v2 := dictInsert v1 (ethKeyOf nic (str ".present")) (str "TRUE")
  let v3 := dictInsert v2 (ethKeyOf nic (str ".networkName")) (n.getD (str "unknown"))
  let v4 :=
    if preserve_mac then
      dictInsert (dictInsert v3 (ethKeyOf nic (str ".address")) (m.getD []))
        (ethKeyOf nic (str ".addressType")) (str "static")
    else v3
  { s with vmx := v4 }

/-- One iteration of `for key, entry in cfg.items()` (lines 115-150): the
disk `if` followed by the independent network `if`. -/
def processEntry (name : List Char) (preserve_mac : Bool) (s : MState)
    (kv : List Char × List Char) : MState :=
  let s1 :=
    if isDiskKey kv.1 then
      if cdromPat.isPrefixOf kv.2 then s else diskStep name s kv.1 kv.2
    else s
  if isNetKey kv.1 then netStep preserve_mac s1 kv.1 kv.2 else s1

/-- `vm_name = cfg.get("name", "")` (line 94). -/
def vmName (cfg : Dict) : List Char := (dictGet cfg (str "name")).getD []

/-- The destination mapping before the device loop: the fixed scalar
translations (lines 96-103), the firmware conditional (lines 105-107) and
the identity conditional (lines 109-111). -/
def initVmx (cfg : Dict) (name : List Char) : Dict :=
  let v := dictInsert [] (str ".encoding") (str "UTF-8")
  let v := dictInsert v (str "displayName") name
  let v := dictInsert v (str "numvcpus") ((dictGet cfg (str "cores")).getD (str "1"))
  let v := dictInsert v (str "memsize") ((dictGet cfg (str "memory")).getD (str "4096"))
  let v := dictInsert v (str "guestOS")
    ((dictGet GUESTOS_MAP ((dictGet cfg (str "ostype")).getD [])).getD (str "other-64"))
  let v := dictInsert v (str "tools.syncTime") (str "TRUE")
  let v := dictInsert v (str "virtualHW.version") (str "19")
  let v := dictInsert v (str "config.version") (str "8")
  let v :=
    if dictGet cfg (str "bios") = some (str "ovmf") ∨ hasKey cfg (str "efidisk0") = true then
      dictInsert (dictInsert v (str "firmware") (str "efi")) (str "efi.present") (str "TRUE")
    else v
  if hasKey cfg (str "smbios1") = true
      ∧ isSubstr (str "uuid=") ((dictGet cfg (str "smbios1")).getD []) = true then
    dictInsert v (str "uuid.bios")
      (((pySplit (str "uuid=") ((dictGet cfg (str "smbios1")).getD [])).get? 1).getD [])
  else v

/-- The state at the top of the device loop. -/
def mstate0 (cfg : Dict) : MState :=
  { vmx := initVmx cfg (vmName cfg), tasks := [], sata := 0, scsi := 0 }

/-- `process_conf(cfg, preserve_mac)` (lines 91-152): returns the destination
mapping and the conversion-task list (each task is `(disk_file, vmdk_name)`). -/
def process_conf (cfg : Dict) (preserve_mac : Bool) : Dict × List (List Char × List Char) :=
  let st := List.foldl (processEntry (vmName cfg) preserve_mac) (mstate0 cfg) cfg
  (st.vmx, st.tasks)

/-- One line of `parse_conf`'s loop (lines 82-87 of the source). -/
def parseStep (cfg : Dict) (line : List Char) : Dict :=
  let l := stripChars line
  if l.isEmpty || !(l.contains ':') then cfg
  else
    dictInsert cfg (stripChars (l.takeWhile (fun c => !(c == ':'))))
      (stripChars ((l.dropWhile (fun c => !(c == ':'))).drop 1))

/-- `parse_conf` (lines 78-88): the file is given as its list of lines. -/
def parse_conf (lines : List (List Char)) : Dict := List.foldl parseStep [] lines

/-- Python `os.path.basename`: the part after the last `/`. -/
def basename (p : List Char) : List Char :=
  (p.reverse.takeWhile (fun c => !(c == '/'))).reverse

/-- The carriage-return-flush progress accumulation of lines 56-63: each
`\r` flushes the accumulator as one progress update; a trailing partial
buffer is discarded. -/
def progressFlushes (acc : List Char) : List Char → List (List Char)
  | [] => []
  | c :: rest =>
    if c = '\r' then acc.reverse :: progressFlushes [] rest
    else progressFlushes (c :: acc) rest

/-- Model of `convert_disk_file` (lines 30-68) after the `pvesm path` call
has resolved the source reference. `pathExists` abstracts
`os.path.exists(disk_path)` and `exitCode`/`output` abstract the `qemu-img`
child process (its exit status and combined output stream). The source
returns `None` when the resolved path is missing, and otherwise streams the
output and returns `os.path.basename(vmdk_path)`; it never reads the
child's exit status. The result is the printed progress updates together
with the returned value. -/
def convert_disk_file (pathExists : Bool) (exitCode : Int) (output : List Char)
    (vmdk_path : List Char) : List (List Char) × Option (List Char) :=
  if !pathExists then ([], none)
  else (progressFlushes [] output, some (basename vmdk_path))

/-- Specification-side count: the number of entries of `cfg` that match the
disk-key pattern, are not skipped as empty CD-ROMs, and are routed to the
given controller family (`scsiFam = true` for the `scsi` family). -/
def countFam (scsiFam : Bool) : List (List Char × List Char) → Nat
  | [] => 0
  | (k, e) :: rest =>
    (if isDiskKey k = true ∧ cdromPat.isPrefixOf e = false ∧ isScsiKey k = scsiFam then 1 else 0)
      + countFam scsiFam rest

/-- The Config Parser line rule as the specification states it: trim the
line; skip it when empty or without a `:`; otherwise split on the first `:`
and trim key and value independently. -/
def parseLineSpec (line : List Char) : Option (List Char × List Char) :=
  let l := stripChars line
  if l = [] then none
  else if l.contains ':' = false then none
  else
    some (stripChars (l.takeWhile (fun c => !(c == ':'))),
      stripChars ((l.dropWhile (fun c => !(c == ':'))).drop 1))

/-- The key/value pairs the specification's line rule extracts from a file. -/
def lineKVs (lines : List (List Char)) : List (List Char × List Char) :=
  lines.filterMap parseLineSpec

/-- The last element of a list, if any. -/
def lastOf : List (List Char) → Option (List Char)
  | [] => none
  | [v] => some v
  | _ :: v :: rest => lastOf (v :: rest)

/-- The value of the LAST line of the file that yields the key `k` under the
specification's line rule (later duplicates overwrite earlier ones). -/
def lastValFor (k : List Char) (lines : List (List Char)) : Option (List Char) :=
  lastOf (((lineKVs lines).filter (fun p => p.1 == k)).map Prod.snd)

/-- Specification-side (amended C2) extraction: everything after the first
`uuid=` up to the next occurrence of `uuid=`, or to the end of the value if
there is none — so any comma-separated components that follow `uuid=` are
kept. -/
def uuidField (v : List Char) : List Char :=
  match splitFirstSub (str "uuid=") v with
  | none => []
  | some p =>
    match splitFirstSub (str "uuid=") p.2 with
    | none => p.2
    | some q => q.1

/-- Does the key end with the MAC-address suffix `.address`? -/
def endsWithAddr (k : List Char) : Bool :=
  (str ".address").reverse.isPrefixOf k.reverse

/-- No key of the mapping ends with the MAC suffix `.address`. -/
def noAddrKeys (d : Dict) : Prop := ∀ p ∈ d, endsWithAddr p.1 = false

/-- Concrete input for C1: the part of the entry value before the first
comma has no convertible extension, but the full value contains `.raw`. -/
def cfgC1 : Dict := [(str "name", str "a"), (str "sata0", str "local:100/vm-disk-0,x=a.raw")]

/-- Concrete input for C2: the `smbios1` value carries a component after the
UUID. -/
def cfgC2 : Dict := [(str "smbios1", str "uuid=ABC,base64=1")]

/-- Concrete prefix for C4: a named mapping whose first `scsi`-family disk
sits at source index 0. -/
def cfgC4pre : Dict := [(str "name", str "t"), (str "scsi0", str "l:a.qcow2,s=1")]

/-- Concrete input for C4: `scsi`-family disks at source indices 0 and 3. -/
def cfgC4 : Dict := cfgC4pre ++ [(str "scsi3", str "l:b.qcow2,s=1")]

/-- Concrete input for C6: one network entry. -/
def cfgC6 : Dict := [(str "net0", str "virtio=AA,bridge=vmbr0")]

/-- Concrete input for C9: a mapping without a `name` key but with a disk. -/
def cfgC9 : Dict := [(str "sata0", str "l:d.qcow2,s=1")]

theorem dictGet_insert_self (d : Dict) (k v : List Char) :
    dictGet (dictInsert d k v) k = some v := by
  induction d with
  | nil => simp [dictInsert, dictGet]
  | cons p rest ih =>
    obtain ⟨k', v'⟩ := p
    by_cases h : k' = k
    · subst h; simp [dictInsert, dictGet]
    · simp [dictInsert, dictGet, h, ih]

theorem dictGet_insert_ne (d : Dict) {k k' : List Char} (v : List Char) (h : k' ≠ k) :
    dictGet (dictInsert d k' v) k = dictGet d k := by
  induction d with
  | nil => simp [dictInsert, dictGet, h]
  | cons p rest ih =>
    obtain ⟨k0, v0⟩ := p
    by_cases h0 : k0 = k'
    · subst h0; simp [dictInsert, dictGet, h]
    · simp [dictInsert, dictGet, h0, ih]

theorem mem_dictInsert {d : Dict} {k v : List Char} {q : List Char × List Char}
    (h : q ∈ dictInsert d k v) : q ∈ d ∨ q = (k, v) := by
  induction d with
  | nil => simpa [dictInsert] using h
  | cons p rest ih =>
    obtain ⟨k0, v0⟩ := p
    by_cases h0 : k0 = k
    · subst h0
      simp only [dictInsert, if_pos rfl] at h
      rcases List.mem_cons.mp h with h1 | h1
      · exact Or.inr h1
      · exact Or.inl (List.mem_cons_of_mem _ h1)
    · simp only [dictInsert, if_neg h0] at h
      rcases List.mem_cons.mp h with h1 | h1
      · exact Or.inl (h1 ▸ List.mem_cons_self _ _)
      · rcases ih h1 with h2 | h2
        · exact Or.inl (List.mem_cons_of_mem _ h2)
        · exact Or.inr h2

theorem append_ne_right {X s t : List Char} (h : s ≠ t) : X ++ s ≠ X ++ t :=
  fun e => h (List.append_cancel_left e)

theorem cons_ne_head {a b : Char} {s t : List Char} (h : a ≠ b) : a :: s ≠ b :: t := by
  intro e; injection e with e1 _; exact h e1

theorem cons_ne_tail {a : Char} {s t : List Char} (h : s ≠ t) : a :: s ≠ a :: t := by
  intro e; injection e with _ e2; exact h e2

theorem ne_of_take2 {a b : List Char} (h : a.take 2 ≠ b.take 2) : a ≠ b :=
  fun e => h (by rw [e])

theorem digitAfter_head {a : Char} {ps k : List Char} (h : digitAfter (a :: ps) k = true) :
    ∃ ks, k = a :: ks := by
  cases k with
  | nil => simp [digitAfter] at h
  | cons b ks =>
    simp only [digitAfter, Bool.and_eq_true, beq_iff_eq] at h
    exact ⟨ks, by rw [h.1]⟩

theorem isDiskKey_head {k : List Char} (h : isDiskKey k = true) :
    ∃ c ks, k = c :: ks ∧ (c = 's' ∨ c = 'e') := by
  rw [isDiskKey, Bool.or_eq_true, Bool.or_eq_true] at h
  rcases h with (h | h) | h
  · obtain ⟨ks, hk⟩ := @digitAfter_head 's' (str "ata") k
      (by rw [← show ('s' :: str "ata") = str "sata" from rfl] at h; exact h)
    exact ⟨'s', ks, hk, Or.inl rfl⟩
  · obtain ⟨ks, hk⟩ := @digitAfter_head 's' (str "csi") k
      (by rw [← show ('s' :: str "csi") = str "scsi" from rfl] at h; exact h)
    exact ⟨'s', ks, hk, Or.inl rfl⟩
  · obtain ⟨ks, hk⟩ := @digitAfter_head 'e' (str "fidisk") k
      (by rw [← show ('e' :: str "fidisk") = str "efidisk" from rfl] at h; exact h)
    exact ⟨'e', ks, hk, Or.inr rfl⟩

theorem isNetKey_head {k : List Char} (h : isNetKey k = true) :
    ∃ ks, k = 'n' :: ks := by
  rw [isNetKey] at h
  exact @digitAfter_head 'n' (str "et") k
    (by rw [← show ('n' :: str "et") = str "net" from rfl] at h; exact h)

theorem disk_not_net {k : List Char} (h : isDiskKey k = true) : isNetKey k = false := by
  obtain ⟨c, ks, rfl, hc⟩ := isDiskKey_head h
  rw [isNetKey, show str "net" = 'n' :: str "et" from rfl]
  rcases hc with rfl | rfl
  · simp [digitAfter, show ('n' == 's') = false from by decide]
  · simp [digitAfter, show ('n' == 'e') = false from by decide]

theorem net_not_disk {k : List Char} (h : isNetKey k = true) : isDiskKey k = false := by
  obtain ⟨ks, rfl⟩ := isNetKey_head h
  rw [isDiskKey, show str "sata" = 's' :: str "ata" from rfl,
    show str "scsi" = 's' :: str "csi" from rfl,
    show str "efidisk" = 'e' :: str "fidisk" from rfl]
  simp [digitAfter, show ('s' == 'n') = false from by decide,
    show ('e' == 'n') = false from by decide]

theorem processEntry_eq (name : List Char) (pm : Bool) (s : MState) (k e : List Char) :
    processEntry name pm s (k, e)
      = (if isNetKey k then
           netStep pm (if isDiskKey k then
               (if cdromPat.isPrefixOf e then s else diskStep name s k e) else s) k e
         else (if isDiskKey k then
               (if cdromPat.isPrefixOf e then s else diskStep name s k e) else s)) := rfl

theorem netStep_sata (pm : Bool) (s : MState) (k e : List Char) :
    (netStep pm s k e).sata = s.sata := rfl

theorem netStep_scsi (pm : Bool) (s : MState) (k e : List Char) :
    (netStep pm s k e).scsi = s.scsi := rfl

theorem netStep_tasks (pm : Bool) (s : MState) (k e : List Char) :
    (netStep pm s k e).tasks = s.tasks := rfl

theorem diskStep_sata (name : List Char) (s : MState) (k e : List Char) :
    (diskStep name s k e).sata = if isScsiKey k then s.sata else s.sata + 1 := rfl

theorem diskStep_scsi (name : List Char) (s : MState) (k e : List Char) :
    (diskStep name s k e).scsi = if isScsiKey k then s.scsi + 1 else s.scsi := rfl

theorem ctr_processEntry (name : List Char) (pm : Bool) (s : MState) (k e : List Char) :
    (processEntry name pm s (k, e)).sata
        = s.sata + (if isDiskKey k = true ∧ cdromPat.isPrefixOf e = false ∧ isScsiKey k = false
            then 1 else 0)
    ∧ (processEntry name pm s (k, e)).scsi
        = s.scsi + (if isDiskKey k = true ∧ cdromPat.isPrefixOf e = false ∧ isScsiKey k = true
            then 1 else 0) := by
  rw [processEntry_eq]
  cases hd : isDiskKey k <;> cases hc : cdromPat.isPrefixOf e <;>
    cases hs : isScsiKey k <;> cases hn : isNetKey k <;>
      simp [netStep_sata, netStep_scsi, diskStep_sata, diskStep_scsi, hs]

theorem ctr_fold (name : List Char) (pm : Bool) (cfg : Dict) : ∀ s : MState,
    (List.foldl (processEntry name pm) s cfg).sata = s.sata + countFam false cfg
    ∧ (List.foldl (processEntry name pm) s cfg).scsi = s.scsi + countFam true cfg := by
  induction cfg with
  | nil => intro s; simp [countFam]
  | cons kv rest ih =>
    intro s
    obtain ⟨k, e⟩ := kv
    obtain ⟨h1, h2⟩ := ctr_processEntry name pm s k e
    obtain ⟨i1, i2⟩ := ih (processEntry name pm s (k, e))
    simp only [List.foldl_cons, countFam]
    constructor
    · rw [i1, h1, Nat.add_assoc]
    · rw [i2, h2, Nat.add_assoc]

theorem take2_scsi0_append (x : List Char) : (devOf true ++ x).take 2 = ['s', 'c'] := rfl

theorem take2_sata0_append (x : List Char) : (devOf false ++ x).take 2 = ['s', 'a'] := rfl

theorem take2_eth_append (x : List Char) : (str "ethernet" ++ x).take 2 = ['e', 't'] := rfl

theorem diskStep_vmx_preserve (name : List Char) (s : MState) (k e key : List Char)
    (h1 : key.take 2 ≠ ['s', 'a']) (h2 : key.take 2 ≠ ['s', 'c']) :
    dictGet (diskStep name s k e).vmx key = dictGet s.vmx key := by
  have hsc : ∀ x : List Char, devOf true ++ x ≠ key :=
    fun x he => h2 (by rw [← he, take2_scsi0_append])
  have hsa : ∀ x : List Char, devOf false ++ x ≠ key :=
    fun x he => h1 (by rw [← he, take2_sata0_append])
  have hvd : str "scsi0.virtualDev" ≠ key :=
    fun he => h2 (by rw [← he]; rfl)
  cases hb : isScsiKey k
  · simp only [diskStep, hb, if_true, if_false, devPresKey, slotPresKey, slotFileKey,
      Bool.false_eq_true, ite_false, ite_true]
    rw [dictGet_insert_ne _ _ (hsa _), dictGet_insert_ne _ _ (hsa _),
      dictGet_insert_ne _ _ (hsa _)]
  · simp only [diskStep, hb, if_true, if_false, devPresKey, slotPresKey, slotFileKey,
      Bool.false_eq_true, ite_false, ite_true]
    rw [dictGet_insert_ne _ _ (hsc _), dictGet_insert_ne _ _ (hsc _),
      dictGet_insert_ne _ _ (hsc _), dictGet_insert_ne _ _ hvd]

theorem netStep_vmx_preserve (pm : Bool) (s : MState) (k e key : List Char)
    (h3 : key.take 2 ≠ ['e', 't']) :
    dictGet (netStep pm s k e).vmx key = dictGet s.vmx key := by
  have het : ∀ x : List Char, str "ethernet" ++ x ≠ key :=
    fun x he => h3 (by rw [← he, take2_eth_append])
  cases hp : pm <;>
    simp only [netStep, hp, if_true, if_false, ethKeyOf, Bool.false_eq_true, ite_false, ite_true]
  · rw [dictGet_insert_ne _ _ (het _), dictGet_insert_ne _ _ (het _),
      dictGet_insert_ne _ _ (het _)]
  · rw [dictGet_insert_ne _ _ (het _), dictGet_insert_ne _ _ (het _),
      dictGet_insert_ne _ _ (het _), dictGet_insert_ne _ _ (het _),
      dictGet_insert_ne _ _ (het _)]

theorem processEntry_vmx_preserve (name : List Char) (pm : Bool) (s : MState)
    (kv : List Char × List Char) (key : List Char)
    (h1 : key.take 2 ≠ ['s', 'a']) (h2 : key.take 2 ≠ ['s', 'c'])
    (h3 : key.take 2 ≠ ['e', 't']) :
    dictGet (processEntry name pm s kv).vmx key = dictGet s.vmx key := by
  obtain ⟨k, e⟩ := kv
  rw [processEntry_eq]
  split
  · rw [netStep_vmx_preserve pm _ k e key h3]
    split
    · split
      · rfl
      · exact diskStep_vmx_preserve name s k e key h1 h2
    · rfl
  · split
    · split
      · rfl
      · exact diskStep_vmx_preserve name s k e key h1 h2
    · rfl

theorem fold_vmx_preserve (name : List Char) (pm : Bool) (cfg : Dict) (key : List Char)
    (h1 : key.take 2 ≠ ['s', 'a']) (h2 : key.take 2 ≠ ['s', 'c'])
    (h3 : key.take 2 ≠ ['e', 't']) : ∀ s : MState,
    dictGet (List.foldl (processEntry name pm) s cfg).vmx key = dictGet s.vmx key := by
  induction cfg with
  | nil => intro s; rfl
  | cons kv rest ih =>
    intro s
    rw [List.foldl_cons, ih (processEntry name pm s kv),
      processEntry_vmx_preserve name pm s kv key h1 h2 h3]

theorem diskStep_tasks (name : List Char) (s : MState) (k e : List Char) :
    (diskStep name s k e).tasks
      = s.tasks ++ (if hasConvertibleExt e = true
          then [(beforeComma e, vmdkNameOf name (isScsiKey k) (ctrOf s (isScsiKey k)))]
          else []) := by
  cases h : hasConvertibleExt e <;> simp [diskStep, h]

theorem processEntry_tasks (name : List Char) (pm : Bool) (s : MState) (k e : List Char) :
    (processEntry name pm s (k, e)).tasks
      = s.tasks ++ (if isDiskKey k = true ∧ cdromPat.isPrefixOf e = false
              ∧ hasConvertibleExt e = true
          then [(beforeComma e, vmdkNameOf name (isScsiKey k) (ctrOf s (isScsiKey k)))]
          else []) := by
  rw [processEntry_eq]
  cases hd : isDiskKey k <;> cases hc : cdromPat.isPrefixOf e <;> cases hn : isNetKey k <;>
    simp [netStep_tasks, diskStep_tasks, hd, hc]

theorem processEntry_disk (name : List Char) (pm : Bool) (s : MState) (k e : List Char)
    (hd : isDiskKey k = true) (hc : cdromPat.isPrefixOf e = false) :
    processEntry name pm s (k, e) = diskStep name s k e := by
  rw [processEntry_eq]
  simp [hd, hc, disk_not_net hd]

theorem processEntry_cdrom (name : List Char) (pm : Bool) (s : MState) (k e : List Char)
    (hd : isDiskKey k = true) (hc : cdromPat.isPrefixOf e = true) :
    processEntry name pm s (k, e) = s := by
  rw [processEntry_eq]
  simp [hd, hc, disk_not_net hd]

theorem processEntry_net (name : List Char) (pm : Bool) (s : MState) (k e : List Char)
    (hn : isNetKey k = true) :
    processEntry name pm s (k, e) = netStep pm s k e := by
  rw [processEntry_eq]
  simp [hn, net_not_disk hn]

theorem initVmx_get_displayName (cfg : Dict) (name : List Char) :
    dictGet (initVmx cfg name) (str "displayName") = some name := by
  unfold initVmx
  by_cases hu : hasKey cfg (str "smbios1") = true
      ∧ isSubstr (str "uuid=") ((dictGet cfg (str "smbios1")).getD []) = true
  · rw [if_pos hu]
    by_cases he : dictGet cfg (str "bios") = some (str "ovmf") ∨ hasKey cfg (str "efidisk0") = true
    · rw [if_pos he]
      repeat rw [dictGet_insert_ne _ _ (by decide)]
      exact dictGet_insert_self _ _ _
    · rw [if_neg he]
      repeat rw [dictGet_insert_ne _ _ (by decide)]
      exact dictGet_insert_self _ _ _
  · rw [if_neg hu]
    by_cases he : dictGet cfg (str "bios") = some (str "ovmf") ∨ hasKey cfg (str "efidisk0") = true
    · rw [if_pos he]
      repeat rw [dictGet_insert_ne _ _ (by decide)]
      exact dictGet_insert_self _ _ _
    · rw [if_neg he]
      repeat rw [dictGet_insert_ne _ _ (by decide)]
      exact dictGet_insert_self _ _ _

theorem initVmx_get_firmware (cfg : Dict) (name : List Char) :
    dictGet (initVmx cfg name) (str "firmware")
      = if dictGet cfg (str "bios") = some (str "ovmf") ∨ hasKey cfg (str "efidisk0") = true
        then some (str "efi") else none := by
  unfold initVmx
  by_cases hu : hasKey cfg (str "smbios1") = true
      ∧ isSubstr (str "uuid=") ((dictGet cfg (str "smbios1")).getD []) = true
  · rw [if_pos hu]
    by_cases he : dictGet cfg (str "bios") = some (str "ovmf") ∨ hasKey cfg (str "efidisk0") = true
    · rw [if_pos he, if_pos he, dictGet_insert_ne _ _ (by decide),
        dictGet_insert_ne _ _ (by decide), dictGet_insert_self]
    · rw [if_neg he, if_neg he, dictGet_insert_ne _ _ (by decide)]
      repeat rw [dictGet_insert_ne _ _ (by decide)]
      rfl
  · rw [if_neg hu]
    by_cases he : dictGet cfg (str "bios") = some (str "ovmf") ∨ hasKey cfg (str "efidisk0") = true
    · rw [if_pos he, if_pos he, dictGet_insert_ne _ _ (by decide), dictGet_insert_self]
    · rw [if_neg he, if_neg he]
      repeat rw [dictGet_insert_ne _ _ (by decide)]
      rfl

theorem initVmx_get_efiPresent (cfg : Dict) (name : List Char) :
    dictGet (initVmx cfg name) (str "efi.present")
      = if dictGet cfg (str "bios") = some (str "ovmf") ∨ hasKey cfg (str "efidisk0") = true
        then some (str "TRUE") else none := by
  unfold initVmx
  by_cases hu : hasKey cfg (str "smbios1") = true
      ∧ isSubstr (str "uuid=") ((dictGet cfg (str "smbios1")).getD []) = true
  · rw [if_pos hu]
    by_cases he : dictGet cfg (str "bios") = some (str "ovmf") ∨ hasKey cfg (str "efidisk0") = true
    · rw [if_pos he, if_pos he, dictGet_insert_ne _ _ (by decide), dictGet_insert_self]
    · rw [if_neg he, if_neg he, dictGet_insert_ne _ _ (by decide)]
      repeat rw [dictGet_insert_ne _ _ (by decide)]
      rfl
  · rw [if_neg hu]
    by_cases he : dictGet cfg (str "bios") = some (str "ovmf") ∨ hasKey cfg (str "efidisk0") = true
    · rw [if_pos he, if_pos he, dictGet_insert_self]
    · rw [if_neg he, if_neg he]
      repeat rw [dictGet_insert_ne _ _ (by decide)]
      rfl

theorem initVmx_get_uuid (cfg : Dict) (name : List Char) :
    dictGet (initVmx cfg name) (str "uuid.bios")
      = if hasKey cfg (str "smbios1") = true
            ∧ isSubstr (str "uuid=") ((dictGet cfg (str "smbios1")).getD []) = true
        then some (((pySplit (str "uuid=") ((dictGet cfg (str "smbios1")).getD [])).get? 1).getD [])
        else none := by
  unfold initVmx
  by_cases hu : hasKey cfg (str "smbios1") = true
      ∧ isSubstr (str "uuid=") ((dictGet cfg (str "smbios1")).getD []) = true
  · rw [if_pos hu, if_pos hu, dictGet_insert_self]
  · rw [if_neg hu, if_neg hu]
    by_cases he : dictGet cfg (str "bios") = some (str "ovmf") ∨ hasKey cfg (str "efidisk0") = true
    · rw [if_pos he]
      repeat rw [dictGet_insert_ne _ _ (by decide)]
      rfl
    · rw [if_neg he]
      repeat rw [dictGet_insert_ne _ _ (by decide)]
      rfl

theorem slotFile_ne_slotPres (b : Bool) (i : Nat) : slotFileKey b i ≠ slotPresKey b i :=
  append_ne_right (cons_ne_tail (append_ne_right (by decide)))

theorem slotFile_ne_devPres (b : Bool) (i : Nat) : slotFileKey b i ≠ devPresKey b := by
  unfold slotFileKey devPresKey
  rw [show str ".present" = '.' :: str "present" from rfl]
  exact append_ne_right (cons_ne_head (by decide))

theorem slotPres_ne_devPres (b : Bool) (i : Nat) : slotPresKey b i ≠ devPresKey b := by
  unfold slotPresKey devPresKey
  rw [show str ".present" = '.' :: str "present" from rfl]
  exact append_ne_right (cons_ne_head (by decide))

theorem diskStep_get_slotFile (name : List Char) (s : MState) (k e : List Char) :
    dictGet (diskStep name s k e).vmx (slotFileKey (isScsiKey k) (ctrOf s (isScsiKey k)))
      = some (vmdkNameOf name (isScsiKey k) (ctrOf s (isScsiKey k))) := by
  simp only [diskStep]
  exact dictGet_insert_self _ _ _

theorem diskStep_get_slotPres (name : List Char) (s : MState) (k e : List Char) :
    dictGet (diskStep name s k e).vmx (slotPresKey (isScsiKey k) (ctrOf s (isScsiKey k)))
      = some (str "TRUE") := by
  simp only [diskStep]
  rw [dictGet_insert_ne _ _ (slotFile_ne_slotPres _ _)]
  exact dictGet_insert_self _ _ _

theorem diskStep_get_devPres (name : List Char) (s : MState) (k e : List Char) :
    dictGet (diskStep name s k e).vmx (devPresKey (isScsiKey k)) = some (str "TRUE") := by
  simp only [diskStep]
  rw [dictGet_insert_ne _ _ (slotFile_ne_devPres _ _),
    dictGet_insert_ne _ _ (slotPres_ne_devPres _ _)]
  exact dictGet_insert_self _ _ _

theorem ethKey_ne_of_suffix {n : Nat} {s1 s2 : List Char} (h : s1 ≠ s2) :
    ethKeyOf n s1 ≠ ethKeyOf n s2 :=
  append_ne_right (append_ne_right h)

theorem netStep_get_addrType (pm : Bool) (s : MState) (k e : List Char) :
    dictGet (netStep pm s k e).vmx (ethKeyOf (nicIdOf k) (str ".addressType"))
      = some (if pm then str "static" else str "vpx") := by
  cases hp : pm <;> simp only [netStep, hp, if_true, if_false, Bool.false_eq_true,
    ite_false, ite_true]
  · rw [dictGet_insert_ne _ _ (ethKey_ne_of_suffix (by decide)),
      dictGet_insert_ne _ _ (ethKey_ne_of_suffix (by decide))]
    exact dictGet_insert_self _ _ _
  · exact dictGet_insert_self _ _ _

theorem netStep_get_addr_true (s : MState) (k e : List Char) :
    dictGet (netStep true s k e).vmx (ethKeyOf (nicIdOf k) (str ".address"))
      = some ((tagSearch nicModels e).getD []) := by
  simp only [netStep, if_true, ite_true]
  rw [dictGet_insert_ne _ _ (ethKey_ne_of_suffix (by decide))]
  exact dictGet_insert_self _ _ _

theorem netStep_get_addr_false (s : MState) (k e : List Char) :
    dictGet (netStep false s k e).vmx (ethKeyOf (nicIdOf k) (str ".address"))
      = dictGet s.vmx (ethKeyOf (nicIdOf k) (str ".address")) := by
  simp only [netStep, if_false, Bool.false_eq_true, ite_false]
  rw [dictGet_insert_ne _ _ (ethKey_ne_of_suffix (by decide)),
    dictGet_insert_ne _ _ (ethKey_ne_of_suffix (by decide)),
    dictGet_insert_ne _ _ (ethKey_ne_of_suffix (by decide))]

theorem not_prefix_head {a b : Char} {s t : List Char} (h : (a == b) = false) :
    (a :: s).isPrefixOf (b :: t) = false := by
  simp only [List.isPrefixOf, h, Bool.false_and]

theorem endsWithAddr_eq_false_of_revhead (k : List Char) (c : Char) (rest : List Char)
    (hk : k.reverse = c :: rest) (hc : ('s' == c) = false) : endsWithAddr k = false := by
  rw [endsWithAddr, hk, show (str ".address").reverse = 's' :: str "serdda." from rfl]
  exact not_prefix_head hc

theorem endsWithAddr_devPres (b : Bool) : endsWithAddr (devPresKey b) = false := by
  cases b <;> decide

theorem endsWithAddr_slotPres (b : Bool) (i : Nat) : endsWithAddr (slotPresKey b i) = false := by
  apply endsWithAddr_eq_false_of_revhead _ 't'
    (((str "neserp." ++ (natToDigits i).reverse) ++ [':']) ++ (devOf b).reverse) _ (by decide)
  simp [slotPresKey, List.reverse_append,
    show (str ".present").reverse = 't' :: str "neserp." from rfl]

theorem endsWithAddr_slotFile (b : Bool) (i : Nat) : endsWithAddr (slotFileKey b i) = false := by
  apply endsWithAddr_eq_false_of_revhead _ 'e'
    (((str "maNelif." ++ (natToDigits i).reverse) ++ [':']) ++ (devOf b).reverse) _ (by decide)
  simp [slotFileKey, List.reverse_append,
    show (str ".fileName").reverse = 'e' :: str "maNelif." from rfl]

theorem endsWithAddr_eth (n : Nat) (suf : List Char) (c : Char) (rest : List Char)
    (hs : suf.reverse = c :: rest) (hc : ('s' == c) = false) :
    endsWithAddr (ethKeyOf n suf) = false := by
  apply endsWithAddr_eq_false_of_revhead _ c
    ((rest ++ (natToDigits n).reverse) ++ (str "ethernet").reverse) _ hc
  simp [ethKeyOf, List.reverse_append, hs]

theorem noAddrKeys_insert {d : Dict} {k v : List Char} (hd : noAddrKeys d)
    (hk : endsWithAddr k = false) : noAddrKeys (dictInsert d k v) := by
  intro q hq
  rcases mem_dictInsert hq with h | h
  · exact hd q h
  · rw [h]; exact hk

theorem diskStep_noAddr (name : List Char) (s : MState) (k e : List Char)
    (h : noAddrKeys s.vmx) : noAddrKeys (diskStep name s k e).vmx := by
  cases hb : isScsiKey k <;>
    simp only [diskStep, hb, if_true, if_false, Bool.false_eq_true, ite_false, ite_true]
  · exact noAddrKeys_insert (noAddrKeys_insert (noAddrKeys_insert h (endsWithAddr_devPres _))
      (endsWithAddr_slotPres _ _)) (endsWithAddr_slotFile _ _)
  · exact noAddrKeys_insert (noAddrKeys_insert (noAddrKeys_insert
      (noAddrKeys_insert h (by decide)) (endsWithAddr_devPres _))
      (endsWithAddr_slotPres _ _)) (endsWithAddr_slotFile _ _)

theorem netStep_noAddr (s : MState) (k e : List Char)
    (h : noAddrKeys s.vmx) : noAddrKeys (netStep false s k e).vmx := by
  simp only [netStep, if_false, Bool.false_eq_true, ite_false]
  exact noAddrKeys_insert (noAddrKeys_insert (noAddrKeys_insert h
      (endsWithAddr_eth _ _ 'e' (str "pyTsserdda.") rfl (by decide)))
    (endsWithAddr_eth _ _ 't' (str "neserp.") rfl (by decide)))
    (endsWithAddr_eth _ _ 'e' (str "maNkrowten.") rfl (by decide))

theorem processEntry_noAddr (name : List Char) (s : MState) (kv : List Char × List Char)
    (h : noAddrKeys s.vmx) : noAddrKeys (processEntry name false s kv).vmx := by
  obtain ⟨k, e⟩ := kv
  rw [processEntry_eq]
  split
  · apply netStep_noAddr
    split
    · split
      · exact h
      · exact diskStep_noAddr name s k e h
    · exact h
  · split
    · split
      · exact h
      · exact diskStep_noAddr name s k e h
    · exact h

theorem fold_noAddr (name : List Char) (cfg : Dict) : ∀ s : MState, noAddrKeys s.vmx →
    noAddrKeys (List.foldl (processEntry name false) s cfg).vmx := by
  induction cfg with
  | nil => intro s h; exact h
  | cons kv rest ih =>
    intro s h
    rw [List.foldl_cons]
    exact ih _ (processEntry_noAddr name s kv h)

theorem initVmx_noAddr (cfg : Dict) (name : List Char) : noAddrKeys (initVmx cfg name) := by
  have h0 : noAddrKeys ([] : Dict) := fun q hq => absurd hq (List.not_mem_nil q)
  have h8 : noAddrKeys (dictInsert (dictInsert (dictInsert (dictInsert (dictInsert (dictInsert
      (dictInsert (dictInsert [] (str ".encoding") (str "UTF-8")) (str "displayName") name)
      (str "numvcpus") ((dictGet cfg (str "cores")).getD (str "1")))
      (str "memsize") ((dictGet cfg (str "memory")).getD (str "4096")))
      (str "guestOS")
      ((dictGet GUESTOS_MAP ((dictGet cfg (str "ostype")).getD [])).getD (str "other-64")))
      (str "tools.syncTime") (str "TRUE"))
      (str "virtualHW.version") (str "19"))
      (str "config.version") (str "8")) :=
    noAddrKeys_insert (noAddrKeys_insert (noAddrKeys_insert (noAddrKeys_insert (noAddrKeys_insert
      (noAddrKeys_insert (noAddrKeys_insert (noAddrKeys_insert h0 (by decide)) (by decide))
      (by decide)) (by decide)) (by decide)) (by decide)) (by decide)) (by decide)
  unfold initVmx
  by_cases hu : hasKey cfg (str "smbios1") = true
      ∧ isSubstr (str "uuid=") ((dictGet cfg (str "smbios1")).getD []) = true
  · rw [if_pos hu]
    by_cases he : dictGet cfg (str "bios") = some (str "ovmf") ∨ hasKey cfg (str "efidisk0") = true
    · rw [if_pos he]
      exact noAddrKeys_insert (noAddrKeys_insert (noAddrKeys_insert h8 (by decide)) (by decide))
        (by decide)
    · rw [if_neg he]
      exact noAddrKeys_insert h8 (by decide)
  · rw [if_neg hu]
    by_cases he : dictGet cfg (str "bios") = some (str "ovmf") ∨ hasKey cfg (str "efidisk0") = true
    · rw [if_pos he]
      exact noAddrKeys_insert (noAddrKeys_insert h8 (by decide)) (by decide)
    · rw [if_neg he]
      exact h8

theorem isSubstr_eq_isSome (sep s : List Char) :
    isSubstr sep s = (splitFirstSub sep s).isSome := by
  induction s with
  | nil =>
    cases hsep : sep.isEmpty <;> simp [isSubstr, splitFirstSub, hsep]
  | cons c rest ih =>
    rw [isSubstr, splitFirstSub]
    cases h : sep.isPrefixOf (c :: rest)
    · simp only [h, Bool.false_or, ih]
      rw [if_neg (by simp)]
      cases splitFirstSub sep rest <;> rfl
    · simp [h]

theorem pySplitAux_fuel (sep : List Char) : ∀ f1 f2 acc s, s.length ≤ f1 → s.length ≤ f2 →
    pySplitAux sep f1 acc s = pySplitAux sep f2 acc s := by
  intro f1
  induction f1 with
  | zero =>
    intro f2 acc s h1 h2
    cases s with
    | nil => cases f2 <;> rfl
    | cons c r => simp at h1
  | succ f ih =>
    intro f2 acc s h1 h2
    cases s with
    | nil => cases f2 <;> rfl
    | cons c r =>
      cases f2 with
      | zero => simp at h2
      | succ f2' =>
        simp only [List.length_cons] at h1 h2
        simp only [pySplitAux]
        cases hp : sep.isPrefixOf (c :: r) <;> simp only [hp, if_true, if_false,
          Bool.false_eq_true, ite_false, ite_true]
        · exact ih f2' (c :: acc) r (by omega) (by omega)
        · refine congrArg _ (ih f2' [] _ ?_ ?_) <;>
            · rw [List.length_drop]; omega

theorem pySplitAux_none (sep : List Char) : ∀ fuel acc s, s.length ≤ fuel →
    splitFirstSub sep s = none → pySplitAux sep fuel acc s = [acc.reverse ++ s] := by
  intro fuel
  induction fuel with
  | zero =>
    intro acc s h1 h2
    cases s with
    | nil => simp [pySplitAux]
    | cons c r => simp at h1
  | succ f ih =>
    intro acc s h1 h2
    cases s with
    | nil => simp [pySplitAux]
    | cons c r =>
      rw [splitFirstSub] at h2
      cases hp : sep.isPrefixOf (c :: r)
      · rw [if_neg (by simp [hp])] at h2
        have hr : splitFirstSub sep r = none := by
          cases hq : splitFirstSub sep r
          · rfl
          · rw [hq] at h2; simp at h2
        simp only [pySplitAux, hp, Bool.false_eq_true, ite_false]
        rw [ih (c :: acc) r (by simpa using h1) hr]
        simp
      · rw [if_pos (by simp [hp])] at h2
        simp at h2

theorem pySplitAux_some (sep : List Char) (hsep : sep ≠ []) : ∀ fuel acc s pre post,
    s.length ≤ fuel → splitFirstSub sep s = some (pre, post) →
    pySplitAux sep fuel acc s = (acc.reverse ++ pre) :: pySplitAux sep post.length [] post := by
  intro fuel
  induction fuel with
  | zero =>
    intro acc s pre post h1 h2
    cases s with
    | nil =>
      rw [splitFirstSub, if_neg (by simpa [List.isEmpty_iff] using hsep)] at h2
      cases h2
    | cons c r => simp at h1
  | succ f ih =>
    intro acc s pre post h1 h2
    cases s with
    | nil =>
      rw [splitFirstSub, if_neg (by simpa [List.isEmpty_iff] using hsep)] at h2
      cases h2
    | cons c r =>
      rw [splitFirstSub] at h2
      cases hp : sep.isPrefixOf (c :: r)
      · rw [if_neg (by simp [hp])] at h2
        rw [Option.map_eq_some'] at h2
        obtain ⟨⟨p1, p2⟩, hq, he⟩ := h2
        have hpre : c :: p1 = pre := congrArg Prod.fst he
        have hpost : p2 = post := congrArg Prod.snd he
        subst hpre; subst hpost
        simp only [pySplitAux, hp, Bool.false_eq_true, ite_false]
        rw [ih (c :: acc) r p1 p2 (by simp only [List.length_cons] at h1; omega) hq]
        simp
      · rw [if_pos (by simp [hp])] at h2
        have h3 := Option.some.inj h2
        have hpre : ([] : List Char) = pre := congrArg Prod.fst h3
        have hpost : (c :: r).drop sep.length = post := congrArg Prod.snd h3
        subst hpre
        obtain ⟨a, sep', rfl⟩ : ∃ a sep', sep = a :: sep' := by
          cases sep with
          | nil => exact absurd rfl hsep
          | cons a sep' => exact ⟨a, sep', rfl⟩
        have hdrop : (c :: r).drop (a :: sep').length = r.drop ((a :: sep').length - 1) := by
          simp [List.length_cons]
        rw [hdrop] at hpost
        subst hpost
        simp only [pySplitAux, hp, if_true, ite_true]
        rw [pySplitAux_fuel (a :: sep') f (r.drop ((a :: sep').length - 1)).length []
          (r.drop ((a :: sep').length - 1))]
        · simp
        · have := List.length_drop ((a :: sep').length - 1) r
          have hr : r.length ≤ f := by simp only [List.length_cons] at h1; omega
          omega
        · exact le_refl _

theorem pySplit_get1 (sep : List Char) (hsep : sep ≠ []) (s pre post : List Char)
    (h : splitFirstSub sep s = some (pre, post)) :
    (pySplit sep s).get? 1
      = some (match splitFirstSub sep post with
              | none => post
              | some q => q.1) := by
  rw [pySplit, pySplitAux_some sep hsep s.length [] s pre post (le_refl _) h]
  cases h2 : splitFirstSub sep post with
  | none => rw [pySplitAux_none sep post.length [] post (le_refl _) h2]; rfl
  | some q =>
    obtain ⟨q1, q2⟩ := q
    rw [pySplitAux_some sep hsep post.length [] post q1 q2 (le_refl _) h2]
    rfl

theorem uuid_value_eq (v : List Char) (hv : isSubstr (str "uuid=") v = true) :
    ((pySplit (str "uuid=") v).get? 1).getD [] = uuidField v := by
  have h : (splitFirstSub (str "uuid=") v).isSome := by rw [← isSubstr_eq_isSome]; exact hv
  obtain ⟨⟨pre, post⟩, hsome⟩ := Option.isSome_iff_exists.mp h
  rw [pySplit_get1 (str "uuid=") (by decide) v pre post hsome, uuidField, hsome]
  cases h2 : splitFirstSub (str "uuid=") post <;> simp [h2]

theorem lastOf_cons (a : List Char) (l : List (List Char)) :
    lastOf (a :: l) = some ((lastOf l).getD a) := by
  induction l generalizing a with
  | nil => rfl
  | cons b t ih =>
    rw [show lastOf (a :: b :: t) = lastOf (b :: t) from rfl, ih]
    rfl

theorem parseStep_eq (cfg : Dict) (line : List Char) :
    parseStep cfg line
      = match parseLineSpec line with
        | none => cfg
        | some (k, v) => dictInsert cfg k v := by
  rw [parseStep, parseLineSpec]
  by_cases h1 : stripChars line = []
  · rw [if_pos (by simp [h1]), if_pos h1]
  · cases h2 : (stripChars line).contains ':'
    · rw [if_pos (by simp [h2]), if_neg h1, if_pos (by simp [h2])]
    · rw [if_neg (by simp [h2, List.isEmpty_iff, h1]), if_neg h1, if_neg (by simp [h2])]

theorem parse_fold (lines : List (List Char)) : ∀ (d : Dict) (k : List Char),
    dictGet (List.foldl parseStep d lines) k
      = match lastValFor k lines with
        | some v => some v
        | none => dictGet d k := by
  induction lines with
  | nil => intro d k; rfl
  | cons line rest ih =>
    intro d k
    rw [List.foldl_cons, parseStep_eq]
    cases hl : parseLineSpec line with
    | none =>
      have hsame : lastValFor k (line :: rest) = lastValFor k rest := by
        rw [lastValFor, lastValFor, lineKVs, lineKVs, List.filterMap_cons_none hl]
      rw [ih, hsame]
    | some kv =>
      obtain ⟨k', v'⟩ := kv
      have hKVs : lineKVs (line :: rest) = (k', v') :: lineKVs rest := by
        rw [lineKVs, lineKVs, List.filterMap_cons_some hl]
      cases hkb : (k' == k)
      · have hkk : k' ≠ k := by simpa using hkb
        have hsame : lastValFor k (line :: rest) = lastValFor k rest := by
          rw [lastValFor, lastValFor, hKVs, List.filter_cons, if_neg (by simp [hkb])]
        rw [ih, hsame, dictGet_insert_ne d v' hkk]
      · have hkk : k' = k := by simpa using hkb
        subst hkk
        have hR : lastValFor k' (line :: rest)
            = some ((lastOf (((lineKVs rest).filter (fun p => p.1 == k')).map Prod.snd)).getD v') := by
          rw [lastValFor, hKVs, List.filter_cons, if_pos (by simp), List.map_cons, lastOf_cons]
        rw [ih, hR, lastValFor]
        cases hv : lastOf (((lineKVs rest).filter (fun p => p.1 == k')).map Prod.snd)
        · simp [dictGet_insert_self]
        · simp

theorem vmName_of_no_name (cfg : Dict) (h : hasKey cfg (str "name") = false) :
    vmName cfg = [] := by
  rw [vmName]
  cases hd : dictGet cfg (str "name") with
  | none => rfl
  | some v => rw [hasKey, hd] at h; simp at h

theorem tasks_shape_fold (name : List Char) (pm : Bool) (cfg : Dict) : ∀ s : MState,
    (∀ t ∈ s.tasks, ∃ b i, t.2 = vmdkNameOf name b i) →
    ∀ t ∈ (List.foldl (processEntry name pm) s cfg).tasks, ∃ b i, t.2 = vmdkNameOf name b i := by
  induction cfg with
  | nil => intro s h; exact h
  | cons kv rest ih =>
    intro s h
    rw [List.foldl_cons]
    apply ih
    intro t ht
    obtain ⟨k, e⟩ := kv
    rw [processEntry_tasks] at ht
    rcases List.mem_append.mp ht with h1 | h1
    · exact h t h1
    · by_cases hb : isDiskKey k = true ∧ cdromPat.isPrefixOf e = false
          ∧ hasConvertibleExt e = true
      · rw [if_pos hb] at h1
        exact ⟨isScsiKey k, ctrOf s (isScsiKey k),
          by rw [List.mem_singleton.mp h1]⟩
      · rw [if_neg hb] at h1
        exact absurd h1 (List.not_mem_nil t)

/-- C1, counterexample: the claim says a ConversionTask is appended if and
only if the backing reference (the substring before the first comma) has a
convertible extension. At the entry `local:100/vm-disk-0,x=a.raw` the
reference `local:100/vm-disk-0` has no convertible extension, yet the code
appends a task, because line 132 substring-matches the WHOLE entry value. -/
theorem C1_counterexample :
    (process_conf cfgC1 true).2 = [(str "local:100/vm-disk-0", str "a-sata0-disk-0.vmdk")]
    ∧ hasConvertibleExt (beforeComma (str "local:100/vm-disk-0,x=a.raw")) = false := by
  constructor
  · decide
  · decide

/-- C1 (amended): for a matched, non-skipped disk entry, a ConversionTask is
appended if and only if the FULL entry value contains `.qcow2`, `.vmdk` or
`.raw` as a (case-sensitive) substring; the appended task's source reference
is the substring of the entry before the first comma and its destination
file name is the one computed for the disk's slot. -/
theorem C1_amended_tasks (name : List Char) (pm : Bool) (s : MState) (key entry : List Char)
    (hd : isDiskKey key = true) (hc : cdromPat.isPrefixOf entry = false) :
    (processEntry name pm s (key, entry)).tasks
      = s.tasks ++ (if hasConvertibleExt entry = true
          then [(beforeComma entry, vmdkNameOf name (isScsiKey key) (ctrOf s (isScsiKey key)))]
          else []) := by
  rw [processEntry_tasks]
  by_cases hx : hasConvertibleExt entry = true
  · rw [if_pos ⟨hd, hc, hx⟩, if_pos hx]
  · rw [if_neg (fun hY => hx hY.2.2), if_neg hx]

/-- Witness for C1 at a concrete convertible disk entry. -/
theorem C1_amended_tasks_witness :
    (isDiskKey (str "sata1") = true
      ∧ cdromPat.isPrefixOf (str "local:100/d.qcow2,size=1G") = false)
    ∧ (processEntry (str "a") true ⟨[], [], 0, 0⟩
          (str "sata1", str "local:100/d.qcow2,size=1G")).tasks
      = [] ++ (if hasConvertibleExt (str "local:100/d.qcow2,size=1G") = true
          then [(beforeComma (str "local:100/d.qcow2,size=1G"),
                 vmdkNameOf (str "a") (isScsiKey (str "sata1"))
                   (ctrOf ⟨[], [], 0, 0⟩ (isScsiKey (str "sata1"))))]
          else []) :=
  ⟨⟨by decide, by decide⟩,
   C1_amended_tasks (str "a") true ⟨[], [], 0, 0⟩ (str "sata1")
     (str "local:100/d.qcow2,size=1G") (by decide) (by decide)⟩

/-- C2, counterexample: the claim says the emitted BIOS UUID stops at the
next delimiter. For `smbios1 = uuid=ABC,base64=1` the code emits
`ABC,base64=1` (everything after `uuid=`), not `ABC`. -/
theorem C2_counterexample :
    dictGet (process_conf cfgC2 true).1 (str "uuid.bios") = some (str "ABC,base64=1")
    ∧ str "ABC,base64=1" ≠ str "ABC" := by
  constructor
  · decide
  · decide

/-- C2 (amended): when the identity attribute `smbios1` is present and its
value contains `uuid=`, the emitted BIOS UUID is everything after the first
`uuid=` up to the next occurrence of `uuid=` (or the end of the value),
including any following comma-separated components; otherwise the
`uuid.bios` key is absent. -/
theorem C2_amended_uuid (cfg : Dict) (pm : Bool) :
    dictGet (process_conf cfg pm).1 (str "uuid.bios")
      = (if hasKey cfg (str "smbios1") = true
             ∧ isSubstr (str "uuid=") ((dictGet cfg (str "smbios1")).getD []) = true
         then some (uuidField ((dictGet cfg (str "smbios1")).getD []))
         else none) := by
  rw [show (process_conf cfg pm).1
      = (List.foldl (processEntry (vmName cfg) pm) (mstate0 cfg) cfg).vmx from rfl,
    fold_vmx_preserve (vmName cfg) pm cfg (str "uuid.bios") (by decide) (by decide) (by decide)
      (mstate0 cfg),
    show (mstate0 cfg).vmx = initVmx cfg (vmName cfg) from rfl,
    initVmx_get_uuid]
  by_cases hu : hasKey cfg (str "smbios1") = true
      ∧ isSubstr (str "uuid=") ((dictGet cfg (str "smbios1")).getD []) = true
  · rw [if_pos hu, if_pos hu, uuid_value_eq _ hu.2]
  · rw [if_neg hu, if_neg hu]

/-- C3: the specification says the Disk Converter waits for the child
conversion process and fails with a ConversionError on a failing exit
status, returning the destination file name only on success. The code never
inspects the exit status: whenever the resolved source path exists it
returns the destination basename, for every exit code — here shown for an
arbitrary (in particular, any nonzero) exit code. -/
theorem C3_exit_status_ignored (exitCode : Int) (output vmdk_path : List Char) :
    (convert_disk_file true exitCode output vmdk_path).2 = some (basename vmdk_path) := rfl

/-- C4: slot indices are dense and zero-based per destination controller
family in source-key discovery order. For any decomposition of the mapping
around a matched, non-skipped disk entry: the per-family counter after the
prefix equals the number of discovered disks of that family in the prefix;
the entry's emitted slot file-name key and value use exactly that index; the
counter then becomes its successor; and one processed entry never decreases
either counter. -/
theorem C4_slot_indices_dense (pm : Bool) (cfg : Dict) (pre post : Dict)
    (key entry : List Char) (hsplit : cfg = pre ++ (key, entry) :: post)
    (hd : isDiskKey key = true) (hc : cdromPat.isPrefixOf entry = false) :
    ctrOf (List.foldl (processEntry (vmName cfg) pm) (mstate0 cfg) pre) (isScsiKey key)
        = countFam (isScsiKey key) pre
    ∧ dictGet (List.foldl (processEntry (vmName cfg) pm) (mstate0 cfg)
          (pre ++ [(key, entry)])).vmx
        (slotFileKey (isScsiKey key) (countFam (isScsiKey key) pre))
      = some (vmdkNameOf (vmName cfg) (isScsiKey key) (countFam (isScsiKey key) pre))
    ∧ ctrOf (List.foldl (processEntry (vmName cfg) pm) (mstate0 cfg)
          (pre ++ [(key, entry)])) (isScsiKey key)
        = countFam (isScsiKey key) pre + 1
    ∧ (∀ (s : MState) (kv : List Char × List Char),
        ctrOf s false ≤ ctrOf (processEntry (vmName cfg) pm s kv) false
        ∧ ctrOf s true ≤ ctrOf (processEntry (vmName cfg) pm s kv) true) := by
  obtain ⟨h1, h2⟩ := ctr_fold (vmName cfg) pm pre (mstate0 cfg)
  have hz1 : (mstate0 cfg).sata = 0 := rfl
  have hz2 : (mstate0 cfg).scsi = 0 := rfl
  have hctr : ctrOf (List.foldl (processEntry (vmName cfg) pm) (mstate0 cfg) pre) (isScsiKey key)
      = countFam (isScsiKey key) pre := by
    cases hb : isScsiKey key <;> simp [ctrOf, hb, h1, h2, hz1, hz2]
  have hstep : List.foldl (processEntry (vmName cfg) pm) (mstate0 cfg) (pre ++ [(key, entry)])
      = diskStep (vmName cfg) (List.foldl (processEntry (vmName cfg) pm) (mstate0 cfg) pre)
          key entry := by
    rw [List.foldl_append, List.foldl_cons, List.foldl_nil,
      processEntry_disk _ _ _ _ _ hd hc]
  refine ⟨hctr, ?_, ?_, ?_⟩
  · rw [hstep, ← hctr]
    exact diskStep_get_slotFile (vmName cfg)
      (List.foldl (processEntry (vmName cfg) pm) (mstate0 cfg) pre) key entry
  · rw [hstep, ← hctr]
    cases hb : isScsiKey key <;> simp [ctrOf, hb, diskStep_sata, diskStep_scsi]
  · intro s kv
    obtain ⟨k, e⟩ := kv
    obtain ⟨hs1, hs2⟩ := ctr_processEntry (vmName cfg) pm s k e
    constructor
    · rw [show ctrOf s false = s.sata from rfl,
        show ctrOf (processEntry (vmName cfg) pm s (k, e)) false
          = (processEntry (vmName cfg) pm s (k, e)).sata from rfl, hs1]
      split <;> omega
    · rw [show ctrOf s true = s.scsi from rfl,
        show ctrOf (processEntry (vmName cfg) pm s (k, e)) true
          = (processEntry (vmName cfg) pm s (k, e)).scsi from rfl, hs2]
      split <;> omega

/-- Witness for C4: the spec's gap example — `scsi`-family disks at source
indices 0 and 3 receive the dense slot indices 0 and 1. -/
theorem C4_slot_indices_dense_witness :
    (isDiskKey (str "scsi3") = true ∧ cdromPat.isPrefixOf (str "l:b.qcow2,s=1") = false)
    ∧ ctrOf (List.foldl (processEntry (vmName cfgC4) true) (mstate0 cfgC4) cfgC4pre)
        (isScsiKey (str "scsi3")) = countFam (isScsiKey (str "scsi3")) cfgC4pre
    ∧ dictGet (List.foldl (processEntry (vmName cfgC4) true) (mstate0 cfgC4)
          (cfgC4pre ++ [(str "scsi3", str "l:b.qcow2,s=1")])).vmx
        (slotFileKey (isScsiKey (str "scsi3")) (countFam (isScsiKey (str "scsi3")) cfgC4pre))
      = some (vmdkNameOf (vmName cfgC4) (isScsiKey (str "scsi3"))
          (countFam (isScsiKey (str "scsi3")) cfgC4pre))
    ∧ ctrOf (List.foldl (processEntry (vmName cfgC4) true) (mstate0 cfgC4)
          (cfgC4pre ++ [(str "scsi3", str "l:b.qcow2,s=1")])) (isScsiKey (str "scsi3"))
        = countFam (isScsiKey (str "scsi3")) cfgC4pre + 1 :=
  ⟨⟨by decide, by decide⟩,
   (C4_slot_indices_dense true cfgC4 cfgC4pre [] (str "scsi3") (str "l:b.qcow2,s=1")
     rfl (by decide) (by decide)).1,
   (C4_slot_indices_dense true cfgC4 cfgC4pre [] (str "scsi3") (str "l:b.qcow2,s=1")
     rfl (by decide) (by decide)).2.1,
   (C4_slot_indices_dense true cfgC4 cfgC4pre [] (str "scsi3") (str "l:b.qcow2,s=1")
     rfl (by decide) (by decide)).2.2.1⟩

/-- C5: the EFI firmware key (value `efi`) and the `efi.present = TRUE` flag
are emitted if and only if the source has `bios = ovmf` or an `efidisk0`
key; otherwise both keys are absent from the destination mapping. -/
theorem C5_efi_iff (cfg : Dict) (pm : Bool) :
    dictGet (process_conf cfg pm).1 (str "firmware")
      = (if dictGet cfg (str "bios") = some (str "ovmf") ∨ hasKey cfg (str "efidisk0") = true
         then some (str "efi") else none)
    ∧ dictGet (process_conf cfg pm).1 (str "efi.present")
      = (if dictGet cfg (str "bios") = some (str "ovmf") ∨ hasKey cfg (str "efidisk0") = true
         then some (str "TRUE") else none) := by
  constructor
  · rw [show (process_conf cfg pm).1
        = (List.foldl (processEntry (vmName cfg) pm) (mstate0 cfg) cfg).vmx from rfl,
      fold_vmx_preserve (vmName cfg) pm cfg (str "firmware") (by decide) (by decide)
        (by decide) (mstate0 cfg)]
    exact initVmx_get_firmware cfg (vmName cfg)
  · rw [show (process_conf cfg pm).1
        = (List.foldl (processEntry (vmName cfg) pm) (mstate0 cfg) cfg).vmx from rfl,
      fold_vmx_preserve (vmName cfg) pm cfg (str "efi.present") (by decide) (by decide)
        (by decide) (mstate0 cfg)]
    exact initVmx_get_efiPresent cfg (vmName cfg)

/-- C6: for every matched network entry, `preserveMac = false` leaves the
address type `vpx` and the whole run emits no key ending in `.address`,
while `preserveMac = true` sets the address type to `static` and always
emits the `.address` key, whose value is the extracted MAC when a supported
NIC-model pattern matches and the empty string otherwise. -/
theorem C6_mac_address_policy :
    (∀ (name : List Char) (pm : Bool) (s : MState) (key entry : List Char),
        isNetKey key = true →
        dictGet (processEntry name pm s (key, entry)).vmx
            (ethKeyOf (nicIdOf key) (str ".addressType"))
          = some (if pm then str "static" else str "vpx")
        ∧ (pm = true →
            dictGet (processEntry name pm s (key, entry)).vmx
                (ethKeyOf (nicIdOf key) (str ".address"))
              = some ((tagSearch nicModels entry).getD []))
        ∧ (pm = false →
            dictGet (processEntry name pm s (key, entry)).vmx
                (ethKeyOf (nicIdOf key) (str ".address"))
              = dictGet s.vmx (ethKeyOf (nicIdOf key) (str ".address"))))
    ∧ (∀ cfg : Dict, ∀ p ∈ (process_conf cfg false).1, endsWithAddr p.1 = false) := by
  constructor
  · intro name pm s key entry hn
    rw [processEntry_net name pm s key entry hn]
    refine ⟨netStep_get_addrType pm s key entry, ?_, ?_⟩
    · intro hp; subst hp; exact netStep_get_addr_true s key entry
    · intro hp; subst hp; exact netStep_get_addr_false s key entry
  · intro cfg
    exact fold_noAddr (vmName cfg) cfg (mstate0 cfg) (initVmx_noAddr cfg (vmName cfg))

/-- Witness for C6: a concrete network entry under both flag values, and a
concrete member of the `preserveMac = false` output. -/
theorem C6_mac_address_policy_witness :
    (isNetKey (str "net0") = true
     ∧ dictGet (processEntry (str "t") true ⟨[], [], 0, 0⟩
           (str "net0", str "virtio=AA,bridge=vmbr0")).vmx
         (ethKeyOf (nicIdOf (str "net0")) (str ".addressType"))
       = some (if true then str "static" else str "vpx"))
    ∧ ((str "ethernet0.addressType", str "vpx") ∈ (process_conf cfgC6 false).1
       ∧ endsWithAddr (str "ethernet0.addressType") = false) :=
  ⟨⟨by decide,
    (C6_mac_address_policy.1 (str "t") true ⟨[], [], 0, 0⟩ (str "net0")
      (str "virtio=AA,bridge=vmbr0") (by decide)).1⟩,
   ⟨by decide,
    C6_mac_address_policy.2 cfgC6 (str "ethernet0.addressType", str "vpx") (by decide)⟩⟩

/-- C7: a matched disk entry whose value begins with `none,media=cdrom`
contributes nothing — the loop state (destination keys, task list and both
slot counters) is completely unchanged, so later disks of the family get the
index they would have had without it. -/
theorem C7_cdrom_skip (name : List Char) (pm : Bool) (s : MState) (key entry : List Char)
    (hd : isDiskKey key = true) (hc : cdromPat.isPrefixOf entry = true) :
    processEntry name pm s (key, entry) = s :=
  processEntry_cdrom name pm s key entry hd hc

/-- Witness for C7 at a concrete empty-CD-ROM entry. -/
theorem C7_cdrom_skip_witness :
    (isDiskKey (str "sata2") = true
      ∧ cdromPat.isPrefixOf (str "none,media=cdrom,size=4M") = true)
    ∧ processEntry (str "t") true ⟨[], [], 0, 0⟩
        (str "sata2", str "none,media=cdrom,size=4M") = ⟨[], [], 0, 0⟩ :=
  ⟨⟨by decide, by decide⟩,
   C7_cdrom_skip (str "t") true ⟨[], [], 0, 0⟩ (str "sata2")
     (str "none,media=cdrom,size=4M") (by decide) (by decide)⟩

/-- C8: the parser's final value for any key is exactly the value of the
last line that yields that key under the specification's line rule (trim
the line, skip empty and separator-less lines, split on the first `:`, trim
key and value independently) — so each line is processed by that rule, later
duplicates overwrite earlier ones, and no line aborts parsing (the parser is
a total function). -/
theorem C8_parser_last_wins (lines : List (List Char)) (k : List Char) :
    dictGet (parse_conf lines) k = lastValFor k lines := by
  rw [parse_conf, parse_fold]
  cases lastValFor k lines <;> rfl

/-- C9: when the source mapping has no `name` key the Attribute Mapper still
succeeds: it emits `displayName` with the empty string as value, and every
generated conversion-task file name is built from the empty display name,
i.e. has the shape `-{family}-disk-{N}.vmdk`. -/
theorem C9_missing_name_defaults (cfg : Dict) (pm : Bool)
    (h : hasKey cfg (str "name") = false) :
    dictGet (process_conf cfg pm).1 (str "displayName") = some []
    ∧ (∀ t ∈ (process_conf cfg pm).2, ∃ b i, t.2 = vmdkNameOf [] b i)
    ∧ (∀ (b : Bool) (i : Nat), vmdkNameOf [] b i
        = str "-" ++ devOf b ++ str "-disk-" ++ natToDigits i ++ str ".vmdk") := by
  have hname : vmName cfg = [] := vmName_of_no_name cfg h
  refine ⟨?_, ?_, ?_⟩
  · rw [show (process_conf cfg pm).1
        = (List.foldl (processEntry (vmName cfg) pm) (mstate0 cfg) cfg).vmx from rfl,
      fold_vmx_preserve (vmName cfg) pm cfg (str "displayName") (by decide) (by decide)
        (by decide) (mstate0 cfg),
      show (mstate0 cfg).vmx = initVmx cfg (vmName cfg) from rfl,
      initVmx_get_displayName, hname]
  · intro t ht
    have hres := tasks_shape_fold (vmName cfg) pm cfg (mstate0 cfg)
      (fun t' ht' => absurd ht' (List.not_mem_nil t')) t ht
    rw [hname] at hres
    exact hres
  · intro b i; rfl

/-- Witness for C9 at a concrete mapping that lacks `name`. -/
theorem C9_missing_name_defaults_witness :
    hasKey cfgC9 (str "name") = false
    ∧ dictGet (process_conf cfgC9 true).1 (str "displayName") = some []
    ∧ vmdkNameOf [] false 0
        = str "-" ++ devOf false ++ str "-disk-" ++ natToDigits 0 ++ str ".vmdk" :=
  ⟨by decide,
   (C9_missing_name_defaults cfgC9 true (by decide)).1,
   (C9_missing_name_defaults cfgC9 true (by decide)).2.2 false 0⟩

/-- C10: a matched disk entry that is not the literal empty-CD-ROM marker
and has no convertible extension (for instance an ISO-backed CD-ROM drive)
is treated as an ordinary disk: it produces no conversion task, emits the
controller-present flag and the slot-present and slot-filename keys (the
latter referencing a `.vmdk` file), and advances its family's slot counter
by one. -/
theorem C10_iso_cdrom_ordinary_disk (name : List Char) (pm : Bool) (s : MState)
    (key entry : List Char) (hd : isDiskKey key = true)
    (hc : cdromPat.isPrefixOf entry = false) (hx : hasConvertibleExt entry = false) :
    (processEntry name pm s (key, entry)).tasks = s.tasks
    ∧ dictGet (processEntry name pm s (key, entry)).vmx (devPresKey (isScsiKey key))
        = some (str "TRUE")
    ∧ dictGet (processEntry name pm s (key, entry)).vmx
        (slotPresKey (isScsiKey key) (ctrOf s (isScsiKey key))) = some (str "TRUE")
    ∧ dictGet (processEntry name pm s (key, entry)).vmx
        (slotFileKey (isScsiKey key) (ctrOf s (isScsiKey key)))
        = some (vmdkNameOf name (isScsiKey key) (ctrOf s (isScsiKey key)))
    ∧ ctrOf (processEntry name pm s (key, entry)) (isScsiKey key)
        = ctrOf s (isScsiKey key) + 1
    ∧ (str ".vmdk").reverse.isPrefixOf
        (vmdkNameOf name (isScsiKey key) (ctrOf s (isScsiKey key))).reverse = true := by
  rw [processEntry_disk name pm s key entry hd hc]
  refine ⟨?_, diskStep_get_devPres name s key entry, diskStep_get_slotPres name s key entry,
    diskStep_get_slotFile name s key entry, ?_, ?_⟩
  · rw [diskStep_tasks, if_neg (by simp [hx]), List.append_nil]
  · cases hb : isScsiKey key <;> simp [ctrOf, hb, diskStep_sata, diskStep_scsi]
  · rw [vmdkNameOf]
    simp only [List.reverse_append, show (str ".vmdk").reverse = 'k' :: str "dmv." from rfl,
      List.cons_append]
    simp [List.isPrefixOf]

/-- Witness for C10 at a concrete ISO-backed CD-ROM entry. -/
theorem C10_iso_cdrom_ordinary_disk_witness :
    (isDiskKey (str "sata0") = true
      ∧ cdromPat.isPrefixOf (str "local:iso/x.iso,media=cdrom") = false
      ∧ hasConvertibleExt (str "local:iso/x.iso,media=cdrom") = false)
    ∧ (processEntry (str "vm") true ⟨[], [], 0, 0⟩
        (str "sata0", str "local:iso/x.iso,media=cdrom")).tasks = []
    ∧ dictGet (processEntry (str "vm") true ⟨[], [], 0, 0⟩
          (str "sata0", str "local:iso/x.iso,media=cdrom")).vmx
        (slotFileKey (isScsiKey (str "sata0")) (ctrOf ⟨[], [], 0, 0⟩ (isScsiKey (str "sata0"))))
      = some (vmdkNameOf (str "vm") (isScsiKey (str "sata0"))
          (ctrOf ⟨[], [], 0, 0⟩ (isScsiKey (str "sata0")))) :=
  ⟨⟨by decide, by decide, by decide⟩,
   (C10_iso_cdrom_ordinary_disk (str "vm") true ⟨[], [], 0, 0⟩ (str "sata0")
     (str "local:iso/x.iso,media=cdrom") (by decide) (by decide) (by decide)).1,
   (C10_iso_cdrom_ordinary_disk (str "vm") true ⟨[], [], 0, 0⟩ (str "sata0")
     (str "local:iso/x.iso,media=cdrom") (by decide) (by decide) (by decide)).2.2.2.1⟩
